import Mathlib

/-!
Verification of the WebThon compiler (`compiler.py`).

The development shallowly embeds the compiler's pipeline — `tokenize`,
`parse`, `generate_html`, `execute_nodes` — as executable Lean functions
over `List Char` (Python strings) and proves or refutes the specified
properties.  Scanner-style functions whose recursion consumes computed
suffixes are written with an explicit fuel argument (fuel = input length)
so that every definition is structurally recursive and kernel-evaluable;
step equations and a fuel-congruence lemma recover the intended recurrences.
-/

set_option maxHeartbeats 1000000
set_option maxRecDepth 8192

/-- A token of the lexer: a bracketed tag literal or a run of plain text,
each carrying its raw text (Python: `('TAG', s)` / `('TEXT', s)` pairs). -/
inductive Token where
  | tag (raw : List Char) : Token
  | text (raw : List Char) : Token
deriving DecidableEq

/-- The raw text of a token (Python: `token[1]`). -/
def Token.raw : Token → List Char
  | .tag r => r
  | .text r => r

/-- Characters matched by the regex class `[^<>]`. -/
def isPlain (c : Char) : Bool := !(c == '<' || c == '>')

/-- Characters other than `>`; a tag token runs to the first `>` (the
non-greedy `<.*?>`). -/
def notGt (c : Char) : Bool := !(c == '>')

/-- Fuel-indexed scanner mirroring `re.finditer` with pattern
`(<.*?>)|([^<>]+)` under `re.DOTALL`: at each position, a `<` with a later
`>` yields a Tag token running to the first `>`; a `<` with no later `>`,
or a bare `>`, matches neither alternative and the character is skipped;
otherwise a maximal run of non-bracket characters yields a Text token.
The fuel (any bound ≥ input length) only forces termination. -/
def tokenizeF : Nat → List Char → List Token
  | 0, _ => []
  | _ + 1, [] => []
  | fuel + 1, c :: rest =>
    if c = '<' then
      if '>' ∈ rest then
        Token.tag ('<' :: rest.takeWhile notGt ++ ['>']) ::
          tokenizeF fuel ((rest.dropWhile notGt).drop 1)
      else tokenizeF fuel rest
    else if c = '>' then tokenizeF fuel rest
    else Token.text (c :: rest.takeWhile isPlain) :: tokenizeF fuel (rest.dropWhile isPlain)

/-- `tokenize` from `compiler.py`. -/
def tokenize (s : List Char) : List Token := tokenizeF s.length s

/-- Concatenation of the raw text of a token sequence. -/
def concatRaw (ts : List Token) : List Char := (ts.map Token.raw).flatten

/-- Fuel-indexed scan deciding whether the tokenizer drops no character:
`false` exactly when the scan meets a `<` with no later `>` or a bare `>`
outside a tag (the two skip branches of `tokenizeF`). -/
def strayFreeF : Nat → List Char → Bool
  | 0, _ => true
  | _ + 1, [] => true
  | fuel + 1, c :: rest =>
    if c = '<' then
      if '>' ∈ rest then strayFreeF fuel ((rest.dropWhile notGt).drop 1)
      else false
    else if c = '>' then false
    else strayFreeF fuel (rest.dropWhile isPlain)

/-- An input has no stray bracket characters: scanning left to right, every
`<` finds a later `>` (forming a tag token) and no `>` occurs outside a
tag.  Exactly characterises the inputs on which tokenization is lossless. -/
def strayFree (s : List Char) : Bool := strayFreeF s.length s

/-- Well-formedness of a token's shape: a Tag token's raw text starts with
`<` and ends with `>`; a Text token's raw text is non-empty and contains
no bracket characters. -/
def tokenWF : Token → Bool
  | .tag r => r.head? == some '<' && r.getLast? == some '>'
  | .text r => !r.isEmpty && r.all isPlain

/- ------------------------------------------------------------------
   AST (`Node` classes) — a mutual inductive so all tree walks are
   structurally recursive and kernel-evaluable.
   ------------------------------------------------------------------ -/

mutual
/-- The `Node` class hierarchy of `compiler.py`. -/
inductive Node where
  | TextNode (text : List Char) : Node
  | HtmlTagNode (tag : List Char) (children : NodeList) : Node
  | PythonNode (code : List Char) : Node
  | CNode (code : List Char) : Node
/-- An ordered children list (Python: `self.children`). -/
inductive NodeList where
  | nil : NodeList
  | cons (n : Node) (ns : NodeList) : NodeList
end

/-- Append a node at the end of a children list (Python `list.append`). -/
def NodeList.snoc : NodeList → Node → NodeList
  | .nil, n => .cons n .nil
  | .cons m ms, n => .cons m (ms.snoc n)

/-- The reserved root tag. -/
def rootTag : List Char := "root".toList

/-- The `HTML_TAGS` mapping of `compiler.py`, in declaration order. -/
def HTML_TAGS : List (List Char × List Char) :=
  [("<print>".toList, "<h1>".toList), ("</print>".toList, "</h1>".toList),
   ("<css>".toList, "<style>".toList), ("</css>".toList, "</style>".toList),
   ("<js>".toList, "<script>".toList), ("</js>".toList, "</script>".toList)]

/-- The Python-block opening spelling. -/
def openPython : List Char := "<python>".toList

/-- The Python-block closing spelling. -/
def closePython : List Char := "</python>".toList

/-- The C-block opening spelling. -/
def openCTag : List Char := "<c>".toList

/-- The C-block closing spelling. -/
def closeCTag : List Char := "</c>".toList

/-- Python `value.startswith("</")`. -/
def startsClose : List Char → Bool
  | '<' :: '/' :: _ => true
  | _ => false

/-- Python `value in HTML_TAGS.values()`. -/
def isHtmlVal (v : List Char) : Bool := HTML_TAGS.any (fun p => p.2 == v)

/-- ASCII whitespace stripped by Python `str.strip()`. -/
def isPySpace (c : Char) : Bool :=
  c == ' ' || c == '\t' || c == '\n' || c == '\r' || c == '\x0b' || c == '\x0c'

/-- Python `code.strip()`: remove whitespace from both ends (and nowhere
else). -/
def pyStrip (l : List Char) : List Char :=
  ((l.dropWhile isPySpace).reverse.dropWhile isPySpace).reverse

/-- The raw-capture loop of `parse` for a foreign-code block: concatenate
the raw text of tokens until one whose raw text equals `closer` (compared
against the token value, whatever its kind), returning the captured text
and the tokens after the closer; capture runs to end of input if no token
matches. -/
def captureCode (closer : List Char) : List Token → List Char × List Token
  | [] => ([], [])
  | t :: ts =>
    if t.raw = closer then ([], ts)
    else
      let p := captureCode closer ts
      (t.raw ++ p.1, p.2)

/-- A parse-stack frame: the element's tag and the children accumulated so
far.  The head of the frame list is Python's `stack[-1]`; the root frame
sits at the end. -/
abbrev Frame := List Char × NodeList

/-- Append a node to the children of the top frame (Python:
`stack[-1].children.append(node)`). -/
def appendTop (n : Node) : List Frame → List Frame
  | [] => []
  | (t, cs) :: fs => (t, cs.snoc n) :: fs

/-- Python: `if len(stack) > 1: stack.pop()`.  Since children are
materialised lazily in this embedding, popping attaches the finished
element to its parent; the Python original appended the element at push
time and mutated it in place, with the same resulting tree. -/
def popFrame : List Frame → List Frame
  | (t, cs) :: g :: fs => appendTop (.HtmlTagNode t cs) (g :: fs)
  | st => st

/-- Fuel-indexed body of `parse`'s token loop, transcribing the branch
chain of `compiler.py` lines 56-91 exactly: Python block, C block,
vocabulary spellings (openers push, closers append an empty element
without popping), already-converted replacement spellings (no-op), other
closing tags (pop when more than the root frame), anything else (no-op). -/
def parseF : Nat → List Token → List Frame → List Frame
  | 0, _, st => st
  | _ + 1, [], st => st
  | fuel + 1, tok :: ts, st =>
    match tok with
    | .text v => parseF fuel ts (appendTop (.TextNode v) st)
    | .tag v =>
      if v = openPython then
        let p := captureCode closePython ts
        parseF fuel p.2 (appendTop (.PythonNode (pyStrip p.1)) st)
      else if v = openCTag then
        let p := captureCode closeCTag ts
        parseF fuel p.2 (appendTop (.CNode (pyStrip p.1)) st)
      else
        match List.lookup v HTML_TAGS with
        | some tag =>
          if startsClose v then parseF fuel ts (appendTop (.HtmlTagNode tag .nil) st)
          else parseF fuel ts ((tag, .nil) :: st)
        | none =>
          if isHtmlVal v then parseF fuel ts st
          else if startsClose v then parseF fuel ts (popFrame st)
          else parseF fuel ts st

/-- `parse`'s loop at its natural fuel. -/
def parseAux (ts : List Token) (st : List Frame) : List Frame := parseF ts.length ts st

/-- Fold the remaining open frames into their parents at end of input
(in Python the open elements are already linked into their parents, so
returning `stack[0]` yields this same tree). -/
def closeAll (f : Frame) : List Frame → Frame
  | [] => f
  | (t, cs) :: fs => closeAll (t, cs.snoc (.HtmlTagNode f.1 f.2)) fs

/-- `parse` from `compiler.py`. -/
def parse (ts : List Token) : Node :=
  match parseAux ts [(rootTag, .nil)] with
  | [] => .HtmlTagNode rootTag .nil
  | f :: fs =>
    let r := closeAll f fs
    .HtmlTagNode r.1 r.2

/- ------------------------------------------------------------------
   Renderer (`generate_html`).
   ------------------------------------------------------------------ -/

mutual
/-- `generate_html` from `compiler.py`: text verbatim; elements as
`f"<{tag}>{inner}</{tag}>"` except the root which emits only its children;
code blocks as `f"<pre><code>{code}</code></pre>"` (note: no escaping). -/
def generate_html : Node → List Char
  | .TextNode t => t
  | .HtmlTagNode tag cs =>
    if tag = rootTag then genChildren cs
    else ['<'] ++ tag ++ ['>'] ++ genChildren cs ++ ['<', '/'] ++ tag ++ ['>']
  | .PythonNode code => "<pre><code>".toList ++ code ++ "</code></pre>".toList
  | .CNode code => "<pre><code>".toList ++ code ++ "</code></pre>".toList
/-- Python: `"".join(generate_html(child) for child in node.children)`. -/
def genChildren : NodeList → List Char
  | .nil => []
  | .cons n ns => generate_html n ++ genChildren ns
end

/-- Modelled from the spec: the whitespace normalization the spec claims
for a code block's `source` — "common leading indentation stripped, outer
blank lines trimmed".  Split into lines, drop leading and trailing blank
lines, remove the common leading-space indentation of the remaining
lines, and rejoin.  (Stated only to compare against the code's
`str.strip`.) -/
def specNormalize (s : List Char) : List Char :=
  let lines := List.splitOn '\n' s
  let isBlank := fun (l : List Char) => l.all isPySpace
  let trimmed := ((lines.dropWhile isBlank).reverse.dropWhile isBlank).reverse
  let indents := (trimmed.filter (fun l => !isBlank l)).map
    (fun l => (l.takeWhile (fun c => c == ' ')).length)
  let ind := indents.foldr Nat.min (indents.headD 0)
  List.intercalate ['\n'] (trimmed.map (List.drop ind))

/- ------------------------------------------------------------------
   Code Extraction & Execution Bridge (`execute_nodes`).
   ------------------------------------------------------------------ -/

/-- The environment's behaviour for one visited code block: whether the
extraction write (`open(...).write`, NOT inside any `try`) succeeds, and
whether the execution step succeeds (`exec` raising is caught;
`gcc` failing with `CalledProcessError` is caught). -/
structure Outcome where
  writeOk : Bool
  runOk : Bool

/-- The Execution Result recorded for one code block: its visit index and
whether the caught execution step succeeded. -/
structure ExecResult where
  idx : Nat
  success : Bool
deriving DecidableEq

mutual
/-- `execute_nodes` from `compiler.py`: iterate the node's children,
extracting and executing Python/C blocks and recursing into element
nodes.  `env k` gives the environment's behaviour for the k-th block
visited; an extraction-write failure is an uncaught exception, modelled
as `Except.error` carrying the failing block's index. -/
def execute_nodes (env : Nat → Outcome) : Node → Nat → Except Nat (Nat × List ExecResult)
  | .HtmlTagNode _ cs, k => execChildren env cs k
  | .TextNode _, k => Except.ok (k, [])
  | .PythonNode _, k => Except.ok (k, [])
  | .CNode _, k => Except.ok (k, [])
/-- The loop body of `execute_nodes` over a children list. -/
def execChildren (env : Nat → Outcome) : NodeList → Nat → Except Nat (Nat × List ExecResult)
  | .nil, k => Except.ok (k, [])
  | .cons (.PythonNode _) ns, k =>
    if (env k).writeOk then
      match execChildren env ns (k + 1) with
      | .ok p => Except.ok (p.1, ⟨k, (env k).runOk⟩ :: p.2)
      | .error e => Except.error e
    else Except.error k
  | .cons (.CNode _) ns, k =>
    if (env k).writeOk then
      match execChildren env ns (k + 1) with
      | .ok p => Except.ok (p.1, ⟨k, (env k).runOk⟩ :: p.2)
      | .error e => Except.error e
    else Except.error k
  | .cons (.HtmlTagNode _ cs) ns, k =>
    match execChildren env cs k with
    | .ok p =>
      match execChildren env ns p.1 with
      | .ok q => Except.ok (q.1, p.2 ++ q.2)
      | .error e => Except.error e
    | .error e => Except.error e
  | .cons (.TextNode _) ns, k => execChildren env ns k
end

mutual
/-- The code blocks below one node in depth-first left-to-right order. -/
def dfsNode : Node → List Node
  | .HtmlTagNode _ cs => dfsBlocks cs
  | .PythonNode c => [.PythonNode c]
  | .CNode c => [.CNode c]
  | .TextNode _ => []
/-- The code blocks of a children list in depth-first left-to-right
order. -/
def dfsBlocks : NodeList → List Node
  | .nil => []
  | .cons n ns => dfsNode n ++ dfsBlocks ns
end

/-- The core order of `compile_webthon_file`: tokenize, parse, execute
(an uncaught exception aborts before any HTML is assembled), then render
the body. -/
def compileModel (env : Nat → Outcome) (source : List Char) :
    Except Nat (List ExecResult × List Char) :=
  let ast := parse (tokenize source)
  match execute_nodes env ast 0 with
  | .ok p => Except.ok (p.2, generate_html ast)
  | .error e => Except.error e

/- ------------------------------------------------------------------
   Scanner infrastructure: fuel congruence, step equations, and the
   induction principle following the scan.
   ------------------------------------------------------------------ -/

theorem lenDropWhileDrop (p : Char → Bool) (l : List Char) :
    ((l.dropWhile p).drop 1).length ≤ l.length := by
  calc ((l.dropWhile p).drop 1).length ≤ (l.dropWhile p).length := by
        rw [List.length_drop]; exact Nat.sub_le _ _
    _ ≤ l.length := (List.dropWhile_sublist p).length_le

theorem tokenizeF_congr : ∀ f₁ f₂ s, s.length ≤ f₁ → s.length ≤ f₂ →
    tokenizeF f₁ s = tokenizeF f₂ s := by
  intro f₁
  induction f₁ with
  | zero =>
    intro f₂ s h₁ _
    have hs : s = [] := List.length_eq_zero.mp (Nat.le_zero.mp h₁)
    subst hs
    cases f₂ <;> rfl
  | succ f ih =>
    intro f₂ s h₁ h₂
    match s, f₂ with
    | [], 0 => rfl
    | [], _ + 1 => rfl
    | c :: rest, 0 => exact absurd h₂ (by simp)
    | c :: rest, f₂ + 1 =>
      have hr : rest.length ≤ f := by simp at h₁; omega
      have hr₂ : rest.length ≤ f₂ := by simp at h₂; omega
      simp only [tokenizeF]
      by_cases hc : c = '<'
      · simp only [if_pos hc]
        by_cases hg : '>' ∈ rest
        · simp only [if_pos hg]
          rw [ih f₂ _ (le_trans (lenDropWhileDrop _ _) hr) (le_trans (lenDropWhileDrop _ _) hr₂)]
        · simp only [if_neg hg]
          exact ih f₂ rest hr hr₂
      · simp only [if_neg hc]
        by_cases hc2 : c = '>'
        · simp only [if_pos hc2]
          exact ih f₂ rest hr hr₂
        · simp only [if_neg hc2]
          rw [ih f₂ (rest.dropWhile isPlain)
            (le_trans (List.dropWhile_sublist _).length_le hr)
            (le_trans (List.dropWhile_sublist _).length_le hr₂)]

theorem tokenize_lt_found {rest : List Char} (h : '>' ∈ rest) :
    tokenize ('<' :: rest) =
      Token.tag ('<' :: rest.takeWhile notGt ++ ['>']) ::
        tokenize ((rest.dropWhile notGt).drop 1) := by
  show tokenizeF (rest.length + 1) ('<' :: rest) = _
  simp only [tokenizeF, if_pos rfl, if_pos h]
  rw [tokenizeF_congr rest.length ((rest.dropWhile notGt).drop 1).length _
    (lenDropWhileDrop _ _) le_rfl]
  rfl

theorem tokenize_lt_notfound {rest : List Char} (h : '>' ∉ rest) :
    tokenize ('<' :: rest) = tokenize rest := by
  show tokenizeF (rest.length + 1) ('<' :: rest) = _
  simp only [tokenizeF, if_pos rfl, if_neg h]
  rfl

theorem tokenize_gt (rest : List Char) : tokenize ('>' :: rest) = tokenize rest := by
  show tokenizeF (rest.length + 1) ('>' :: rest) = _
  simp only [tokenizeF, if_neg (by decide : ¬('>' = '<')), if_pos rfl]
  rfl

theorem tokenize_plain {c : Char} (rest : List Char) (h1 : c ≠ '<') (h2 : c ≠ '>') :
    tokenize (c :: rest) =
      Token.text (c :: rest.takeWhile isPlain) :: tokenize (rest.dropWhile isPlain) := by
  show tokenizeF (rest.length + 1) (c :: rest) = _
  simp only [tokenizeF, if_neg h1, if_neg h2]
  rw [tokenizeF_congr rest.length (rest.dropWhile isPlain).length _
    (List.dropWhile_sublist _).length_le le_rfl]
  rfl

theorem strayFreeF_congr : ∀ f₁ f₂ s, s.length ≤ f₁ → s.length ≤ f₂ →
    strayFreeF f₁ s = strayFreeF f₂ s := by
  intro f₁
  induction f₁ with
  | zero =>
    intro f₂ s h₁ _
    have hs : s = [] := List.length_eq_zero.mp (Nat.le_zero.mp h₁)
    subst hs
    cases f₂ <;> rfl
  | succ f ih =>
    intro f₂ s h₁ h₂
    match s, f₂ with
    | [], 0 => rfl
    | [], _ + 1 => rfl
    | c :: rest, 0 => exact absurd h₂ (by simp)
    | c :: rest, f₂ + 1 =>
      have hr : rest.length ≤ f := by simp at h₁; omega
      have hr₂ : rest.length ≤ f₂ := by simp at h₂; omega
      simp only [strayFreeF]
      by_cases hc : c = '<'
      · simp only [if_pos hc]
        by_cases hg : '>' ∈ rest
        · simp only [if_pos hg]
          exact ih f₂ _ (le_trans (lenDropWhileDrop _ _) hr) (le_trans (lenDropWhileDrop _ _) hr₂)
        · simp only [if_neg hg]
      · simp only [if_neg hc]
        by_cases hc2 : c = '>'
        · simp only [if_pos hc2]
        · simp only [if_neg hc2]
          exact ih f₂ (rest.dropWhile isPlain)
            (le_trans (List.dropWhile_sublist _).length_le hr)
            (le_trans (List.dropWhile_sublist _).length_le hr₂)

theorem strayFree_lt_found {rest : List Char} (h : '>' ∈ rest) :
    strayFree ('<' :: rest) = strayFree ((rest.dropWhile notGt).drop 1) := by
  show strayFreeF (rest.length + 1) ('<' :: rest) = _
  simp only [strayFreeF, if_pos rfl, if_pos h]
  exact strayFreeF_congr _ _ _ (lenDropWhileDrop _ _) le_rfl

theorem strayFree_lt_notfound {rest : List Char} (h : '>' ∉ rest) :
    strayFree ('<' :: rest) = false := by
  show strayFreeF (rest.length + 1) ('<' :: rest) = _
  rw [strayFreeF, if_pos rfl, if_neg h]

theorem strayFree_gt (rest : List Char) : strayFree ('>' :: rest) = false := by
  show strayFreeF (rest.length + 1) ('>' :: rest) = _
  rw [strayFreeF, if_neg (by decide : ¬('>' = '<')), if_pos rfl]

theorem strayFree_plain {c : Char} (rest : List Char) (h1 : c ≠ '<') (h2 : c ≠ '>') :
    strayFree (c :: rest) = strayFree (rest.dropWhile isPlain) := by
  show strayFreeF (rest.length + 1) (c :: rest) = _
  simp only [strayFreeF, if_neg h1, if_neg h2]
  exact strayFreeF_congr _ _ _ (List.dropWhile_sublist _).length_le le_rfl

/-- Induction following the scanner's recursion. -/
theorem scanInduction (P : List Char → Prop) (h0 : P [])
    (h1 : ∀ rest, '>' ∈ rest → P ((rest.dropWhile notGt).drop 1) → P ('<' :: rest))
    (h2 : ∀ rest, '>' ∉ rest → P rest → P ('<' :: rest))
    (h3 : ∀ rest, P rest → P ('>' :: rest))
    (h4 : ∀ c rest, c ≠ '<' → c ≠ '>' → P (rest.dropWhile isPlain) → P (c :: rest)) :
    ∀ s, P s := by
  have key : ∀ n s, s.length ≤ n → P s := by
    intro n
    induction n with
    | zero =>
      intro s hs
      have h : s = [] := List.length_eq_zero.mp (Nat.le_zero.mp hs)
      subst h; exact h0
    | succ n ih =>
      intro s hs
      match s with
      | [] => exact h0
      | c :: rest =>
        have hr : rest.length ≤ n := by simp at hs; omega
        by_cases hc : c = '<'
        · subst hc
          by_cases hg : '>' ∈ rest
          · exact h1 rest hg (ih _ (le_trans (lenDropWhileDrop _ _) hr))
          · exact h2 rest hg (ih _ hr)
        · by_cases hc2 : c = '>'
          · subst hc2; exact h3 rest (ih _ hr)
          · exact h4 c rest hc hc2 (ih _ (le_trans (List.dropWhile_sublist _).length_le hr))
  intro s
  exact key s.length s le_rfl

/- ------------------------------------------------------------------
   takeWhile / dropWhile plumbing for the scan.
   ------------------------------------------------------------------ -/

theorem concatRaw_nil : concatRaw [] = [] := rfl

theorem concatRaw_cons (t : Token) (ts : List Token) :
    concatRaw (t :: ts) = t.raw ++ concatRaw ts := by
  simp [concatRaw]

theorem gt_head_dropWhile {rest : List Char} (h : '>' ∈ rest) :
    ∃ tl, rest.dropWhile notGt = '>' :: tl := by
  induction rest with
  | nil => cases h
  | cons c cs ih =>
    by_cases hc : c = '>'
    · subst hc
      exact ⟨cs, by simp [List.dropWhile_cons, notGt]⟩
    · have hm : '>' ∈ cs := by
        cases List.mem_cons.mp h with
        | inl h' => exact absurd h'.symm hc
        | inr h' => exact h'
      obtain ⟨tl, htl⟩ := ih hm
      exact ⟨tl, by simp [List.dropWhile_cons, notGt, hc, htl]⟩

theorem takeWhile_append_failing (p : Char → Bool) (xs : List Char) {y : Char}
    (ys : List Char) (hy : p y = false) :
    (xs ++ y :: ys).takeWhile p = xs.takeWhile p := by
  induction xs with
  | nil => simp [List.takeWhile_cons, hy]
  | cons x xs ih => by_cases hx : p x <;> simp [List.takeWhile_cons, hx, ih]

theorem dropWhile_append_failing (p : Char → Bool) (xs : List Char) {y : Char}
    (ys : List Char) (hy : p y = false) :
    (xs ++ y :: ys).dropWhile p = xs.dropWhile p ++ y :: ys := by
  induction xs with
  | nil => simp [List.dropWhile_cons, hy]
  | cons x xs ih => by_cases hx : p x <;> simp [List.dropWhile_cons, hx, ih]

theorem takeWhile_append_of_mem {xs : List Char} (u : List Char) (h : '>' ∈ xs) :
    (xs ++ u).takeWhile notGt = xs.takeWhile notGt := by
  induction xs with
  | nil => cases h
  | cons x xs ih =>
    by_cases hx : x = '>'
    · subst hx; simp [List.takeWhile_cons, notGt]
    · have hm : '>' ∈ xs := by
        cases List.mem_cons.mp h with
        | inl h' => exact absurd h'.symm hx
        | inr h' => exact h'
      simp [List.takeWhile_cons, notGt, hx, ih hm]

theorem dropWhile_append_of_mem {xs : List Char} (u : List Char) (h : '>' ∈ xs) :
    (xs ++ u).dropWhile notGt = xs.dropWhile notGt ++ u := by
  induction xs with
  | nil => cases h
  | cons x xs ih =>
    by_cases hx : x = '>'
    · subst hx; simp [List.dropWhile_cons, notGt]
    · have hm : '>' ∈ xs := by
        cases List.mem_cons.mp h with
        | inl h' => exact absurd h'.symm hx
        | inr h' => exact h'
      simp [List.dropWhile_cons, notGt, hx, ih hm]

/- ------------------------------------------------------------------
   Losslessness of tokenization (exactly on stray-free input).
   ------------------------------------------------------------------ -/

theorem concatRaw_tokenize_of_strayFree :
    ∀ s, strayFree s = true → concatRaw (tokenize s) = s := by
  refine scanInduction (fun s => strayFree s = true → concatRaw (tokenize s) = s)
    (fun _ => rfl) ?_ ?_ ?_ ?_
  · intro rest hg ih hs
    rw [strayFree_lt_found hg] at hs
    obtain ⟨tl, htl⟩ := gt_head_dropWhile hg
    have hsuf : (rest.dropWhile notGt).drop 1 = tl := by rw [htl]; rfl
    rw [hsuf] at hs ih
    rw [tokenize_lt_found hg, hsuf, concatRaw_cons, ih hs]
    have hre : rest = rest.takeWhile notGt ++ '>' :: tl := by
      conv_lhs => rw [← List.takeWhile_append_dropWhile notGt rest]
      rw [htl]
    conv_rhs => rw [hre]
    simp [Token.raw]
  · intro rest hg _ hs
    rw [strayFree_lt_notfound hg] at hs
    cases hs
  · intro rest _ hs
    rw [strayFree_gt] at hs
    cases hs
  · intro c rest h1 h2 ih hs
    rw [strayFree_plain rest h1 h2] at hs
    rw [tokenize_plain rest h1 h2, concatRaw_cons, ih hs]
    have hre : rest = rest.takeWhile isPlain ++ rest.dropWhile isPlain :=
      (List.takeWhile_append_dropWhile isPlain rest).symm
    conv_rhs => rw [hre]
    simp [Token.raw]

theorem concatRaw_tokenize_length_le :
    ∀ s, (concatRaw (tokenize s)).length ≤ s.length := by
  refine scanInduction (fun s => (concatRaw (tokenize s)).length ≤ s.length)
    (by simp [tokenize, tokenizeF, concatRaw]) ?_ ?_ ?_ ?_
  · intro rest hg ih
    obtain ⟨tl, htl⟩ := gt_head_dropWhile hg
    have hsuf : (rest.dropWhile notGt).drop 1 = tl := by rw [htl]; rfl
    have hre : rest = rest.takeWhile notGt ++ '>' :: tl := by
      conv_lhs => rw [← List.takeWhile_append_dropWhile notGt rest]
      rw [htl]
    rw [tokenize_lt_found hg, concatRaw_cons, hsuf]
    rw [hsuf] at ih
    have hlen : rest.length = (rest.takeWhile notGt).length + 1 + tl.length := by
      conv_lhs => rw [hre]
      simp
      omega
    simp only [List.length_cons, List.length_append, Token.raw]
    simp
    omega
  · intro rest hg ih
    rw [tokenize_lt_notfound hg]
    exact le_trans ih (Nat.le_succ _)
  · intro rest ih
    rw [tokenize_gt]
    exact le_trans ih (Nat.le_succ _)
  · intro c rest h1 h2 ih
    rw [tokenize_plain rest h1 h2, concatRaw_cons]
    have hlen := congrArg List.length (List.takeWhile_append_dropWhile isPlain rest)
    rw [List.length_append] at hlen
    simp only [List.length_cons, List.length_append, Token.raw]
    simp
    omega

theorem concatRaw_tokenize_length_lt :
    ∀ s, strayFree s = false → (concatRaw (tokenize s)).length < s.length := by
  refine scanInduction (fun s => strayFree s = false → (concatRaw (tokenize s)).length < s.length)
    (by intro h; cases h) ?_ ?_ ?_ ?_
  · intro rest hg ih hs
    rw [strayFree_lt_found hg] at hs
    obtain ⟨tl, htl⟩ := gt_head_dropWhile hg
    have hsuf : (rest.dropWhile notGt).drop 1 = tl := by rw [htl]; rfl
    have hre : rest = rest.takeWhile notGt ++ '>' :: tl := by
      conv_lhs => rw [← List.takeWhile_append_dropWhile notGt rest]
      rw [htl]
    have ih' := ih (by rw [hsuf]; rw [hsuf] at hs; exact hs)
    rw [hsuf] at ih'
    rw [tokenize_lt_found hg, concatRaw_cons, hsuf]
    have hlen : rest.length = (rest.takeWhile notGt).length + 1 + tl.length := by
      conv_lhs => rw [hre]
      simp
      omega
    simp only [List.length_cons, List.length_append, Token.raw]
    simp
    omega
  · intro rest hg _ _
    rw [tokenize_lt_notfound hg]
    exact Nat.lt_succ_of_le (concatRaw_tokenize_length_le rest)
  · intro rest _ _
    rw [tokenize_gt]
    exact Nat.lt_succ_of_le (concatRaw_tokenize_length_le rest)
  · intro c rest h1 h2 ih hs
    rw [strayFree_plain rest h1 h2] at hs
    rw [tokenize_plain rest h1 h2, concatRaw_cons]
    have ih' := ih hs
    have hlen := congrArg List.length (List.takeWhile_append_dropWhile isPlain rest)
    rw [List.length_append] at hlen
    simp only [List.length_cons, List.length_append, Token.raw]
    simp
    omega

/- ------------------------------------------------------------------
   Token shape invariant and append lemmas for the tokenizer.
   ------------------------------------------------------------------ -/

theorem tokenWF_of_mem_tokenize :
    ∀ s, ∀ t ∈ tokenize s, tokenWF t = true := by
  refine scanInduction (fun s => ∀ t ∈ tokenize s, tokenWF t = true)
    (by intro t ht; cases ht) ?_ ?_ ?_ ?_
  · intro rest hg ih t ht
    rw [tokenize_lt_found hg] at ht
    cases List.mem_cons.mp ht with
    | inl h =>
      subst h
      simp only [tokenWF, Bool.and_eq_true, beq_iff_eq]
      refine ⟨rfl, ?_⟩
      rw [List.getLast?_concat]
    | inr h => exact ih t h
  · intro rest hg ih t ht
    rw [tokenize_lt_notfound hg] at ht
    exact ih t ht
  · intro rest ih t ht
    rw [tokenize_gt] at ht
    exact ih t ht
  · intro c rest h1 h2 ih t ht
    rw [tokenize_plain rest h1 h2] at ht
    cases List.mem_cons.mp ht with
    | inl h =>
      subst h
      simp only [tokenWF, Bool.and_eq_true, List.isEmpty_cons, Bool.not_false, true_and,
        List.all_eq_true]
      intro x hx
      cases List.mem_cons.mp hx with
      | inl h' => subst h'; simp [isPlain, h1, h2]
      | inr h' => exact List.mem_takeWhile_imp h'
    | inr h => exact ih t h

theorem raw_infix_concatRaw : ∀ ts : List Token, ∀ t ∈ ts, t.raw <:+: concatRaw ts := by
  intro ts
  induction ts with
  | nil => intro t ht; cases ht
  | cons x ts ih =>
    intro t ht
    rw [concatRaw_cons]
    cases List.mem_cons.mp ht with
    | inl h =>
      subst h
      exact ⟨[], concatRaw ts, by simp⟩
    | inr h =>
      obtain ⟨s₁, s₂, hs⟩ := ih t h
      exact ⟨x.raw ++ s₁, s₂, by rw [← hs]; simp⟩

theorem tokenize_append_lt :
    ∀ s, strayFree s = true → ∀ u, tokenize (s ++ '<' :: u) = tokenize s ++ tokenize ('<' :: u) := by
  refine scanInduction
    (fun s => strayFree s = true → ∀ u, tokenize (s ++ '<' :: u) = tokenize s ++ tokenize ('<' :: u))
    (by intro _ u; rfl) ?_ ?_ ?_ ?_
  · intro rest hg ih hs u
    rw [strayFree_lt_found hg] at hs
    obtain ⟨tl, htl⟩ := gt_head_dropWhile hg
    have hsuf : (rest.dropWhile notGt).drop 1 = tl := by rw [htl]; rfl
    rw [hsuf] at hs ih
    have hg' : '>' ∈ rest ++ '<' :: u := List.mem_append_left _ hg
    show tokenize ('<' :: (rest ++ '<' :: u)) = _
    rw [tokenize_lt_found hg', tokenize_lt_found hg, hsuf]
    rw [takeWhile_append_of_mem _ hg, dropWhile_append_of_mem _ hg, htl]
    show _ :: tokenize (tl ++ '<' :: u) = _
    rw [ih hs u]
    simp
  · intro rest hg _ hs _
    rw [strayFree_lt_notfound hg] at hs
    cases hs
  · intro rest _ hs _
    rw [strayFree_gt] at hs
    cases hs
  · intro c rest h1 h2 ih hs u
    rw [strayFree_plain rest h1 h2] at hs
    show tokenize (c :: (rest ++ '<' :: u)) = _
    rw [tokenize_plain (rest ++ '<' :: u) h1 h2, tokenize_plain rest h1 h2]
    rw [@takeWhile_append_failing isPlain rest '<' u (by simp [isPlain])]
    rw [@dropWhile_append_failing isPlain rest '<' u (by simp [isPlain])]
    rw [ih hs u]
    simp

theorem tokenize_tag_start {a : List Char} (v : List Char) (ha : '>' ∉ a) :
    tokenize ('<' :: (a ++ '>' :: v)) = Token.tag ('<' :: a ++ ['>']) :: tokenize v := by
  have hg : '>' ∈ a ++ '>' :: v := List.mem_append_right _ (List.mem_cons_self _ _)
  rw [tokenize_lt_found hg]
  have hall : ∀ x ∈ a, notGt x = true := by
    intro x hx
    have : x ≠ '>' := fun he => ha (he ▸ hx)
    simp [notGt, this]
  have ht : (a ++ '>' :: v).takeWhile notGt = a := by
    rw [takeWhile_append_failing notGt a v (by simp [notGt])]
    exact List.takeWhile_eq_self_iff.mpr hall
  have hd : (a ++ '>' :: v).dropWhile notGt = '>' :: v := by
    rw [dropWhile_append_failing notGt a v (by simp [notGt])]
    rw [List.dropWhile_eq_nil_iff.mpr hall]
    rfl
  rw [ht, hd]
  rfl

/- ------------------------------------------------------------------
   C2 and C10: tokenizer properties.
   ------------------------------------------------------------------ -/

/-- C2 counterexample: tokenization is not lossless on every input — on
the input `<` (an unmatched `<`) the tokenizer produces no token at all,
so the concatenation of the raw token texts is empty and does not
reproduce the input. -/
theorem c2_counterexample : concatRaw (tokenize "<".toList) ≠ "<".toList := by decide

/-- C2 (amended): concatenating the raw text of all tokens reproduces the
input exactly if and only if the input is stray-free — scanning left to
right, every `<` finds a later `>` (forming a tag token) and no `>`
occurs outside a tag.  Stray `<` and `>` characters are dropped by the
tokenizer, so losslessness fails exactly on inputs containing them. -/
theorem c2_tokenize_lossless_iff (s : List Char) :
    concatRaw (tokenize s) = s ↔ strayFree s = true := by
  constructor
  · intro h
    by_contra hq
    have hlt := concatRaw_tokenize_length_lt s (Bool.not_eq_true _ ▸ hq)
    rw [h] at hlt
    exact absurd hlt (lt_irrefl _)
  · exact concatRaw_tokenize_of_strayFree s

/-- C10: every token produced by the tokenizer is well-shaped — a Tag
token's raw text begins with `<` and ends with `>`, and a Text token's
raw text is non-empty and contains neither `<` nor `>`. -/
theorem c10_token_shape (s : List Char) (t : Token) (h : t ∈ tokenize s) :
    tokenWF t = true := tokenWF_of_mem_tokenize s t h

/-- C10 witness: on the input `a<b>` the tokenizer produces the Text token
`a` and the Tag token `<b>`, both well-shaped. -/
theorem c10_token_shape_witness :
    (Token.text "a".toList ∈ tokenize "a<b>".toList ∧
      tokenWF (Token.text "a".toList) = true) ∧
    (Token.tag "<b>".toList ∈ tokenize "a<b>".toList ∧
      tokenWF (Token.tag "<b>".toList) = true) :=
  ⟨⟨by decide, c10_token_shape "a<b>".toList (Token.text "a".toList) (by decide)⟩,
   ⟨by decide, c10_token_shape "a<b>".toList (Token.tag "<b>".toList) (by decide)⟩⟩

/- ------------------------------------------------------------------
   Capture and parse-step infrastructure.
   ------------------------------------------------------------------ -/

theorem captureCode_append {cl : List Char} :
    ∀ ts : List Token, (∀ t ∈ ts, t.raw ≠ cl) → ∀ rest,
      captureCode cl (ts ++ Token.tag cl :: rest) = (concatRaw ts, rest) := by
  intro ts
  induction ts with
  | nil =>
    intro _ rest
    simp [captureCode, Token.raw, concatRaw]
  | cons t ts ih =>
    intro h rest
    have ht : t.raw ≠ cl := h t (List.mem_cons_self _ _)
    have h' : ∀ u ∈ ts, u.raw ≠ cl := fun u hu => h u (List.mem_cons_of_mem _ hu)
    simp only [List.cons_append, captureCode, if_neg ht, concatRaw_cons]
    rw [show List.append ts (Token.tag cl :: rest) = ts ++ Token.tag cl :: rest from rfl]
    rw [ih h' rest]

theorem captureCode_nomatch {cl : List Char} :
    ∀ ts : List Token, (∀ t ∈ ts, t.raw ≠ cl) →
      captureCode cl ts = (concatRaw ts, []) := by
  intro ts
  induction ts with
  | nil => intro _; rfl
  | cons t ts ih =>
    intro h
    have ht : t.raw ≠ cl := h t (List.mem_cons_self _ _)
    have h' : ∀ u ∈ ts, u.raw ≠ cl := fun u hu => h u (List.mem_cons_of_mem _ hu)
    simp only [captureCode, if_neg ht, ih h', concatRaw_cons]

theorem captureCode_snd_le (cl : List Char) :
    ∀ ts : List Token, (captureCode cl ts).2.length ≤ ts.length := by
  intro ts
  induction ts with
  | nil => simp [captureCode]
  | cons t ts ih =>
    by_cases h : t.raw = cl
    · simp [captureCode, h]
    · simp only [captureCode, if_neg h]
      exact le_trans ih (Nat.le_succ _)

theorem parseF_congr : ∀ f₁ f₂ ts st, ts.length ≤ f₁ → ts.length ≤ f₂ →
    parseF f₁ ts st = parseF f₂ ts st := by
  intro f₁
  induction f₁ with
  | zero =>
    intro f₂ ts st h₁ _
    have hs : ts = [] := List.length_eq_zero.mp (Nat.le_zero.mp h₁)
    subst hs
    cases f₂ <;> rfl
  | succ f ih =>
    intro f₂ ts st h₁ h₂
    match ts, f₂ with
    | [], 0 => rfl
    | [], _ + 1 => rfl
    | tok :: ts, 0 => exact absurd h₂ (by simp)
    | tok :: ts, f₂ + 1 =>
      have hr : ts.length ≤ f := by simp at h₁; omega
      have hr₂ : ts.length ≤ f₂ := by simp at h₂; omega
      cases tok with
      | text v =>
        simp only [parseF]
        exact ih f₂ ts _ hr hr₂
      | tag v =>
        simp only [parseF]
        by_cases hp : v = openPython
        · simp only [if_pos hp]
          exact ih f₂ _ _ (le_trans (captureCode_snd_le _ _) hr)
            (le_trans (captureCode_snd_le _ _) hr₂)
        · simp only [if_neg hp]
          by_cases hc : v = openCTag
          · simp only [if_pos hc]
            exact ih f₂ _ _ (le_trans (captureCode_snd_le _ _) hr)
              (le_trans (captureCode_snd_le _ _) hr₂)
          · simp only [if_neg hc]
            cases List.lookup v HTML_TAGS with
            | some tag =>
              by_cases hs : startsClose v
              · simp only [hs, if_true]
                exact ih f₂ ts _ hr hr₂
              · simp only [Bool.not_eq_true] at hs
                simp only [hs, Bool.false_eq_true, if_false]
                exact ih f₂ ts _ hr hr₂
            | none =>
              by_cases hv : isHtmlVal v
              · simp only [hv, if_true]
                exact ih f₂ ts _ hr hr₂
              · simp only [Bool.not_eq_true] at hv
                simp only [hv, Bool.false_eq_true, if_false]
                by_cases hs : startsClose v
                · simp only [hs, if_true]
                  exact ih f₂ ts _ hr hr₂
                · simp only [Bool.not_eq_true] at hs
                  simp only [hs, Bool.false_eq_true, if_false]
                  exact ih f₂ ts _ hr hr₂

theorem parseAux_nil (st : List Frame) : parseAux [] st = st := rfl

theorem parseAux_text (v : List Char) (ts : List Token) (st : List Frame) :
    parseAux (Token.text v :: ts) st = parseAux ts (appendTop (.TextNode v) st) := rfl

theorem parseAux_python (ts : List Token) (st : List Frame) :
    parseAux (Token.tag openPython :: ts) st =
      parseAux (captureCode closePython ts).2
        (appendTop (.PythonNode (pyStrip (captureCode closePython ts).1)) st) := by
  show parseF (ts.length + 1) _ _ = _
  simp only [parseF, if_pos rfl]
  exact parseF_congr _ _ _ _ (captureCode_snd_le _ _) le_rfl

theorem parseAux_cons (tok : Token) (ts : List Token) (st : List Frame) :
    parseAux (tok :: ts) st =
      match tok with
      | .text v => parseAux ts (appendTop (.TextNode v) st)
      | .tag v =>
        if v = openPython then
          parseAux (captureCode closePython ts).2
            (appendTop (.PythonNode (pyStrip (captureCode closePython ts).1)) st)
        else if v = openCTag then
          parseAux (captureCode closeCTag ts).2
            (appendTop (.CNode (pyStrip (captureCode closeCTag ts).1)) st)
        else
          match List.lookup v HTML_TAGS with
          | some tag =>
            if startsClose v then parseAux ts (appendTop (.HtmlTagNode tag .nil) st)
            else parseAux ts ((tag, .nil) :: st)
          | none =>
            if isHtmlVal v then parseAux ts st
            else if startsClose v then parseAux ts (popFrame st)
            else parseAux ts st := by
  cases tok with
  | text v => rfl
  | tag v =>
    show parseF (ts.length + 1) _ _ = _
    simp only [parseF]
    by_cases hp : v = openPython
    · simp only [if_pos hp]
      exact parseF_congr _ _ _ _ (captureCode_snd_le _ _) le_rfl
    · simp only [if_neg hp]
      by_cases hc : v = openCTag
      · simp only [if_pos hc]
        exact parseF_congr _ _ _ _ (captureCode_snd_le _ _) le_rfl
      · simp only [if_neg hc]
        rfl

/- ------------------------------------------------------------------
   The parse stack always keeps the root frame at its bottom.
   ------------------------------------------------------------------ -/

/-- The stack shape maintained by `parse`: non-empty, with the root frame
at the bottom. -/
def goodStack (st : List Frame) : Prop := ∃ fs cs, st = fs ++ [(rootTag, cs)]

theorem goodStack_appendTop (n : Node) {st : List Frame} (h : goodStack st) :
    goodStack (appendTop n st) := by
  obtain ⟨fs, cs, rfl⟩ := h
  cases fs with
  | nil => exact ⟨[], cs.snoc n, rfl⟩
  | cons f fs =>
    obtain ⟨t, c⟩ := f
    exact ⟨(t, c.snoc n) :: fs, cs, rfl⟩

theorem goodStack_push (f : Frame) {st : List Frame} (h : goodStack st) :
    goodStack (f :: st) := by
  obtain ⟨fs, cs, rfl⟩ := h
  exact ⟨f :: fs, cs, rfl⟩

theorem goodStack_popFrame {st : List Frame} (h : goodStack st) :
    goodStack (popFrame st) := by
  obtain ⟨fs, cs, rfl⟩ := h
  cases fs with
  | nil => exact ⟨[], cs, rfl⟩
  | cons f fs =>
    obtain ⟨t, c⟩ := f
    cases fs with
    | nil => exact goodStack_appendTop _ ⟨[], cs, rfl⟩
    | cons g gs =>
      exact goodStack_appendTop _ ⟨g :: gs, cs, rfl⟩

theorem goodStack_parseAux : ∀ n ts st, ts.length ≤ n → goodStack st →
    goodStack (parseAux ts st) := by
  intro n
  induction n with
  | zero =>
    intro ts st h hg
    have hs : ts = [] := List.length_eq_zero.mp (Nat.le_zero.mp h)
    subst hs
    exact hg
  | succ n ih =>
    intro ts st h hg
    match ts with
    | [] => exact hg
    | tok :: ts =>
      have hr : ts.length ≤ n := by simp at h; omega
      rw [parseAux_cons]
      cases tok with
      | text v => exact ih ts _ hr (goodStack_appendTop _ hg)
      | tag v =>
        dsimp only
        by_cases hp : v = openPython
        · simp only [if_pos hp]
          exact ih _ _ (le_trans (captureCode_snd_le _ _) hr) (goodStack_appendTop _ hg)
        · simp only [if_neg hp]
          by_cases hc : v = openCTag
          · simp only [if_pos hc]
            exact ih _ _ (le_trans (captureCode_snd_le _ _) hr) (goodStack_appendTop _ hg)
          · simp only [if_neg hc]
            cases List.lookup v HTML_TAGS with
            | some tag =>
              by_cases hs : startsClose v
              · simp only [hs, if_true]
                exact ih ts _ hr (goodStack_appendTop _ hg)
              · simp only [Bool.not_eq_true] at hs
                simp only [hs, Bool.false_eq_true, if_false]
                exact ih ts _ hr (goodStack_push _ hg)
            | none =>
              by_cases hv : isHtmlVal v
              · simp only [hv, if_true]
                exact ih ts _ hr hg
              · simp only [Bool.not_eq_true] at hv
                simp only [hv, Bool.false_eq_true, if_false]
                by_cases hs : startsClose v
                · simp only [hs, if_true]
                  exact ih ts _ hr (goodStack_popFrame hg)
                · simp only [Bool.not_eq_true] at hs
                  simp only [hs, Bool.false_eq_true, if_false]
                  exact ih ts _ hr hg

theorem closeAll_fst : ∀ fs (f : Frame) cs, (closeAll f (fs ++ [(rootTag, cs)])).1 = rootTag := by
  intro fs
  induction fs with
  | nil => intro f cs; rfl
  | cons g gs ih =>
    intro f cs
    obtain ⟨t, c⟩ := g
    exact ih _ cs

theorem parse_root_form (ts : List Token) :
    ∃ cs, parse ts = Node.HtmlTagNode rootTag cs := by
  have hg : goodStack (parseAux ts [(rootTag, .nil)]) :=
    goodStack_parseAux ts.length ts _ le_rfl ⟨[], .nil, rfl⟩
  obtain ⟨fs, cs, he⟩ := hg
  unfold parse
  rw [he]
  cases fs with
  | nil =>
    refine ⟨cs, ?_⟩
    simp only [List.nil_append]
    rfl
  | cons f fs =>
    refine ⟨(closeAll f (fs ++ [(rootTag, cs)])).2, ?_⟩
    have h1 := closeAll_fst fs f cs
    simp only [List.cons_append]
    show Node.HtmlTagNode (closeAll f (fs ++ [(rootTag, cs)])).1
      (closeAll f (fs ++ [(rootTag, cs)])).2 = _
    rw [h1]

/- ------------------------------------------------------------------
   C7: parser totality and leniency.
   ------------------------------------------------------------------ -/

/-- C7 counterexample: unmatched closing vocabulary tags are NOT ignored —
on the single token `</css>` the parser appends an element node with tag
`</style>` (rendered as `<</style>></</style>>`), and an unknown opening
tag such as `<div>` is dropped rather than left open: its following text
becomes a child of the root, not of a `div` element. -/
theorem c7_counterexample :
    parse (tokenize "</css>".toList) =
      Node.HtmlTagNode rootTag (.cons (.HtmlTagNode "</style>".toList .nil) .nil) ∧
    generate_html (parse (tokenize "</css>".toList)) = "<</style>></</style>>".toList ∧
    parse (tokenize "<div>x".toList) =
      Node.HtmlTagNode rootTag (.cons (.TextNode "x".toList) .nil) :=
  ⟨rfl, rfl, rfl⟩

/-- C7 (amended): for every finite token sequence the parser terminates
and returns an element node carrying the reserved root tag, never raising
an error; a non-vocabulary closing tag with no matching open element is
ignored (shown here: a leading `</div>` leaves the parse unchanged).
Unmatched vocabulary closers are not ignored but append an inert empty
element, and unknown opening tags are dropped rather than left open;
vocabulary openers without closers remain open to end of input.  No input
causes a failure. -/
theorem c7_parse_total (ts : List Token) :
    (∃ cs, parse ts = Node.HtmlTagNode rootTag cs) ∧
    parse (Token.tag "</div>".toList :: ts) = parse ts :=
  ⟨parse_root_form ts, rfl⟩

/- ------------------------------------------------------------------
   C1: the closing-vocabulary-tag branch.
   ------------------------------------------------------------------ -/

/-- C1: evaluation at the failing input
`<css>body{color:red}</css><python>print(1)</python>`: the token `</css>`
matches the vocabulary branch (its spelling is a key of `HTML_TAGS`), so
the parser appends a fresh element with tag `</style>` as a child and
never reaches the popping branch; the `<style>` element therefore stays
open and swallows the Python block, and the renderer (which wraps
`node.tag` in a second pair of brackets) emits double-bracketed output
that does not contain `<style>body{color:red}</style>`. -/
theorem c1_failing_eval :
    parse (tokenize "<css>body\x7bcolor:red\x7d</css><python>print(1)</python>".toList) =
      Node.HtmlTagNode rootTag
        (.cons (.HtmlTagNode "<style>".toList
          (.cons (.TextNode "body\x7bcolor:red\x7d".toList)
            (.cons (.HtmlTagNode "</style>".toList .nil)
              (.cons (.PythonNode "print(1)".toList) .nil)))) .nil) ∧
    generate_html
        (parse (tokenize "<css>body\x7bcolor:red\x7d</css><python>print(1)</python>".toList)) =
      "<<style>>body\x7bcolor:red\x7d<</style>></</style>><pre><code>print(1)</code></pre></<style>>".toList ∧
    ¬ ("<style>body\x7bcolor:red\x7d</style>".toList <:+:
        generate_html
          (parse (tokenize "<css>body\x7bcolor:red\x7d</css><python>print(1)</python>".toList))) :=
  ⟨rfl, rfl, by decide⟩

/- ------------------------------------------------------------------
   C3 / C5 / C8: foreign-code capture.
   ------------------------------------------------------------------ -/

theorem pyStrip_substring (l : List Char) : pyStrip l <:+: l := by
  have h1 : l.dropWhile isPySpace <:+ l := List.dropWhile_suffix isPySpace
  have h2 : (l.dropWhile isPySpace).reverse.dropWhile isPySpace <:+
      (l.dropWhile isPySpace).reverse := List.dropWhile_suffix isPySpace
  have h3 : pyStrip l <+: l.dropWhile isPySpace := by
    apply List.reverse_suffix.mp
    simpa [pyStrip] using h2
  obtain ⟨t, ht⟩ := h3
  obtain ⟨s, hs⟩ := h1
  refine ⟨s, t, ?_⟩
  rw [List.append_assoc, ht]
  exact hs

/-- C3 (amended): foreign-code opacity holds for every interior whose
bracket characters are balanced under the scan (`strayFree`) and which
does not contain the closing spelling: the parser consumes the opening
tag, captures the interior verbatim (modulo the single outer
`str.strip`), applies no vocabulary substitution inside it, consumes the
closing tag (which does not appear in the captured source), and resumes
ordinary parsing after it.  Without those conditions an unbalanced `<`
in the interior merges the closing tag into a larger tag token and the
property fails (see the counterexample). -/
theorem c3_foreign_code_opacity (interior rest : List Char) (st : List Frame)
    (h1 : strayFree interior = true)
    (h2 : ¬ closePython <:+: interior) :
    parseAux (tokenize (openPython ++ interior ++ closePython ++ rest)) st =
      parseAux (tokenize rest)
        (appendTop (Node.PythonNode (pyStrip interior)) st) ∧
    generate_html (Node.PythonNode (pyStrip interior)) =
      "<pre><code>".toList ++ pyStrip interior ++ "</code></pre>".toList ∧
    ¬ closePython <:+: pyStrip interior := by
  have hloss : concatRaw (tokenize interior) = interior :=
    concatRaw_tokenize_of_strayFree interior h1
  have hno : ∀ t ∈ tokenize interior, t.raw ≠ closePython := by
    intro t ht he
    exact h2 (he ▸ (hloss ▸ raw_infix_concatRaw (tokenize interior) t ht))
  have e1 : openPython ++ interior ++ closePython ++ rest =
      '<' :: ("python".toList ++ '>' ::
        (interior ++ '<' :: ("/python".toList ++ '>' :: rest))) := by
    rw [List.append_assoc, List.append_assoc]
    rfl
  have hsplit : tokenize (openPython ++ interior ++ closePython ++ rest) =
      Token.tag openPython :: (tokenize interior ++ Token.tag closePython :: tokenize rest) := by
    rw [e1]
    rw [@tokenize_tag_start "python".toList
      (interior ++ '<' :: ("/python".toList ++ '>' :: rest)) (by decide)]
    rw [tokenize_append_lt interior h1 ("/python".toList ++ '>' :: rest)]
    rw [@tokenize_tag_start "/python".toList rest (by decide)]
    rfl
  refine ⟨?_, rfl, ?_⟩
  · rw [hsplit, parseAux_python, captureCode_append (tokenize interior) hno (tokenize rest),
      hloss]
  · intro hinf
    exact h2 (hinf.trans (pyStrip_substring interior))

/-- C3 witness at the interior `if a < b and b > c: pass` (which contains
both bracket characters), with empty trailing input. -/
theorem c3_witness :
    strayFree "if a < b and b > c: pass".toList = true ∧
    ¬ closePython <:+: "if a < b and b > c: pass".toList ∧
    (parseAux (tokenize (openPython ++ "if a < b and b > c: pass".toList ++
        closePython ++ [])) [(rootTag, .nil)] =
      parseAux (tokenize [])
        (appendTop (Node.PythonNode (pyStrip "if a < b and b > c: pass".toList))
          [(rootTag, .nil)]) ∧
    generate_html (Node.PythonNode (pyStrip "if a < b and b > c: pass".toList)) =
      "<pre><code>".toList ++ pyStrip "if a < b and b > c: pass".toList ++
        "</code></pre>".toList ∧
    ¬ closePython <:+: pyStrip "if a < b and b > c: pass".toList) :=
  ⟨by decide, by decide,
    c3_foreign_code_opacity "if a < b and b > c: pass".toList [] [(rootTag, .nil)]
      (by decide) (by decide)⟩

/-- C3 counterexample: with the interior `if a < b: pass` (a lone `<`
with no later `>` inside the interior), the closing `</python>` merges
into one tag token `< b: pass</python>`; the capture loop never sees a
token spelled `</python>`, so the captured source contains the closing
tag and the capture runs to end of input. -/
theorem c3_counterexample :
    parse (tokenize "<python>if a < b: pass</python>".toList) =
      Node.HtmlTagNode rootTag
        (.cons (.PythonNode "if a < b: pass</python>".toList) .nil) ∧
    closePython <:+: "if a < b: pass</python>".toList :=
  ⟨rfl, by decide⟩

/-- C5 counterexample: for the input `<python>\n  a\n  b\n</python>` the
stored source is `a\n  b` — Python `str.strip()` trims outer whitespace
only and keeps the second line's indentation — whereas the claimed
normalization (common leading indentation stripped, outer blank lines
trimmed) yields `a\nb`. -/
theorem c5_counterexample :
    parse (tokenize "<python>\n  a\n  b\n</python>".toList) =
      Node.HtmlTagNode rootTag (.cons (.PythonNode "a\n  b".toList) .nil) ∧
    "a\n  b".toList ≠ specNormalize "\n  a\n  b\n".toList ∧
    specNormalize "\n  a\n  b\n".toList = "a\nb".toList :=
  ⟨rfl, by decide, by decide⟩

/-- C5 (amended): the stored source of a parsed foreign-code block equals
the concatenated raw interior text with Python `str.strip()` applied
once: whitespace removed from both ends only, per-line indentation
preserved (no dedent). -/
theorem c5_source_is_strip (ts rest : List Token) (st : List Frame)
    (h : ∀ t ∈ ts, t.raw ≠ closePython) :
    parseAux (Token.tag openPython :: (ts ++ Token.tag closePython :: rest)) st =
      parseAux rest (appendTop (Node.PythonNode (pyStrip (concatRaw ts))) st) := by
  rw [parseAux_python, captureCode_append ts h rest]

/-- C5 witness: one text token `  x  ` between the python tags; the stored
source is `x`. -/
theorem c5_source_is_strip_witness :
    (∀ t ∈ [Token.text "  x  ".toList], t.raw ≠ closePython) ∧
    parseAux (Token.tag openPython ::
        ([Token.text "  x  ".toList] ++ Token.tag closePython :: [])) [(rootTag, .nil)] =
      parseAux []
        (appendTop (Node.PythonNode (pyStrip (concatRaw [Token.text "  x  ".toList])))
          [(rootTag, .nil)]) :=
  ⟨by decide,
    c5_source_is_strip [Token.text "  x  ".toList] [] [(rootTag, .nil)] (by decide)⟩

/-- C8 counterexample: on the input `<python>a<` the remaining input after
the opening tag is `a<`, but the tokenizer drops the trailing stray `<`,
so the block's captured source is `a`, not all remaining input. -/
theorem c8_counterexample :
    parse (tokenize "<python>a<".toList) =
      Node.HtmlTagNode rootTag (.cons (.PythonNode "a".toList) .nil) ∧
    "a".toList ≠ "a<".toList :=
  ⟨rfl, by decide⟩

/-- C8 (amended): a foreign-code opening tag with no matching closing
token makes the parser capture the concatenated raw text of ALL remaining
tokens (equal to the remaining input minus any stray brackets the
tokenizer dropped), stripped of outer whitespace, as the block's source;
the parse completes normally and returns the root. -/
theorem c8_unterminated_capture (ts : List Token) (h : ∀ t ∈ ts, t.raw ≠ closePython) :
    parse (Token.tag openPython :: ts) =
      Node.HtmlTagNode rootTag (.cons (.PythonNode (pyStrip (concatRaw ts))) .nil) := by
  have h1 : parseAux (Token.tag openPython :: ts) [(rootTag, .nil)] =
      [(rootTag, NodeList.nil.snoc (Node.PythonNode (pyStrip (concatRaw ts))))] := by
    rw [parseAux_python, captureCode_nomatch ts h]
    rfl
  unfold parse
  rw [h1]
  rfl

/-- C8 witness: an unterminated block whose remainder is the single text
token `foo`. -/
theorem c8_unterminated_capture_witness :
    (∀ t ∈ [Token.text "foo".toList], t.raw ≠ closePython) ∧
    parse (Token.tag openPython :: [Token.text "foo".toList]) =
      Node.HtmlTagNode rootTag
        (.cons (.PythonNode (pyStrip (concatRaw [Token.text "foo".toList]))) .nil) :=
  ⟨by decide, c8_unterminated_capture [Token.text "foo".toList] (by decide)⟩

/- ------------------------------------------------------------------
   C4 / C9: renderer properties.
   ------------------------------------------------------------------ -/

/-- C4 counterexample: the renderer does not HTML-escape a code block's
source — for the source `a<b` the emitted placeholder contains the raw
`<` and no `&lt;` entity. -/
theorem c4_counterexample :
    generate_html (Node.PythonNode "a<b".toList) = "<pre><code>a<b</code></pre>".toList ∧
    ¬ ("&lt;".toList <:+: generate_html (Node.PythonNode "a<b".toList)) ∧
    '<' ∈ generate_html (Node.PythonNode "a<b".toList) :=
  ⟨rfl, by decide, by decide⟩

/-- C4 (amended): for every code block node (Python or C) the renderer
emits exactly `<pre><code>` ++ source ++ `</code></pre>`, the source
included verbatim and unescaped; the renderer itself emits no
`<python>`/`<c>`-style tag around it and triggers no execution. -/
theorem c4_render_code_verbatim (code : List Char) :
    generate_html (Node.PythonNode code) =
      "<pre><code>".toList ++ code ++ "</code></pre>".toList ∧
    generate_html (Node.CNode code) =
      "<pre><code>".toList ++ code ++ "</code></pre>".toList :=
  ⟨rfl, rfl⟩

/-- C9: the renderer is a deterministic, side-effect-free function of the
tree: any two renders of the same Document Tree are byte-identical. -/
theorem c9_render_deterministic (t : Node) (r₁ r₂ : List Char)
    (h₁ : r₁ = generate_html t) (h₂ : r₂ = generate_html t) : r₁ = r₂ :=
  h₁.trans h₂.symm

/-- C9 witness: two renders of a one-text-node tree coincide. -/
theorem c9_render_deterministic_witness :
    "x".toList = generate_html (Node.TextNode "x".toList) ∧
    ("x".toList : List Char) = "x".toList :=
  ⟨rfl, c9_render_deterministic (Node.TextNode "x".toList) "x".toList "x".toList rfl rfl⟩

/- ------------------------------------------------------------------
   C6: execution order and failure behaviour of the Bridge.
   ------------------------------------------------------------------ -/

/-- Induction over children lists that also descends into element
children, built from the mutual recursor. -/
theorem NodeList.myInduction (P : NodeList → Prop)
    (h0 : P .nil)
    (h1 : ∀ t cs ns, P cs → P ns → P (.cons (.HtmlTagNode t cs) ns))
    (h2 : ∀ s ns, P ns → P (.cons (.TextNode s) ns))
    (h3 : ∀ c ns, P ns → P (.cons (.PythonNode c) ns))
    (h4 : ∀ c ns, P ns → P (.cons (.CNode c) ns)) :
    ∀ ns, P ns :=
  @NodeList.rec (fun n => ∀ ns, P ns → P (.cons n ns)) P
    (fun s ns hns => h2 s ns hns)
    (fun t cs hcs ns hns => h1 t cs ns hcs hns)
    (fun c ns hns => h3 c ns hns)
    (fun c ns hns => h4 c ns hns)
    h0
    (fun _ _ ihn ihns => ihn _ ihns)

theorem range'_split : ∀ m s n, List.range' s (m + n) = List.range' s m ++ List.range' (s + m) n := by
  intro m
  induction m with
  | zero => intro s n; simp
  | succ m ih =>
    intro s n
    have e1 : m + 1 + n = (m + n) + 1 := by omega
    rw [e1, List.range'_succ, List.range'_succ, ih (s + 1) n]
    simp only [List.cons_append]
    have e2 : s + 1 + m = s + (m + 1) := by omega
    rw [e2]

theorem execChildren_ok (env : Nat → Outcome) (h : ∀ i, (env i).writeOk = true) :
    ∀ ns : NodeList, ∀ k, execChildren env ns k =
      Except.ok (k + (dfsBlocks ns).length,
        (List.range' k (dfsBlocks ns).length).map (fun i => ⟨i, (env i).runOk⟩)) := by
  refine NodeList.myInduction
    (fun ns => ∀ k, execChildren env ns k =
      Except.ok (k + (dfsBlocks ns).length,
        (List.range' k (dfsBlocks ns).length).map (fun i => ⟨i, (env i).runOk⟩)))
    ?_ ?_ ?_ ?_ ?_
  · intro k
    simp [execChildren, dfsBlocks]
  · intro t cs ns ihcs ihns k
    rw [show execChildren env (.cons (.HtmlTagNode t cs) ns) k =
      (match execChildren env cs k with
        | .ok p =>
          match execChildren env ns p.1 with
          | .ok q => Except.ok (q.1, p.2 ++ q.2)
          | .error e => Except.error e
        | .error e => Except.error e) from rfl]
    rw [ihcs k]
    dsimp only
    rw [ihns (k + (dfsBlocks cs).length)]
    dsimp only
    rw [show dfsBlocks (.cons (.HtmlTagNode t cs) ns) = dfsBlocks cs ++ dfsBlocks ns from rfl]
    rw [List.length_append, range'_split (dfsBlocks cs).length k (dfsBlocks ns).length,
      List.map_append]
    rw [show k + (dfsBlocks cs).length + (dfsBlocks ns).length =
      k + ((dfsBlocks cs).length + (dfsBlocks ns).length) from by omega]
  · intro s ns ih k
    rw [show execChildren env (.cons (.TextNode s) ns) k = execChildren env ns k from rfl]
    rw [ih k]
    rfl
  · intro c ns ih k
    rw [show execChildren env (.cons (.PythonNode c) ns) k =
      (if (env k).writeOk then
        match execChildren env ns (k + 1) with
        | .ok p => Except.ok (p.1, ⟨k, (env k).runOk⟩ :: p.2)
        | .error e => Except.error e
      else Except.error k) from rfl]
    rw [if_pos (h k), ih (k + 1)]
    show Except.ok _ = _
    rw [show dfsBlocks (.cons (.PythonNode c) ns) = Node.PythonNode c :: dfsBlocks ns from rfl]
    rw [List.length_cons, List.range'_succ, List.map_cons]
    rw [show k + 1 + (dfsBlocks ns).length = k + ((dfsBlocks ns).length + 1) from by omega]
  · intro c ns ih k
    rw [show execChildren env (.cons (.CNode c) ns) k =
      (if (env k).writeOk then
        match execChildren env ns (k + 1) with
        | .ok p => Except.ok (p.1, ⟨k, (env k).runOk⟩ :: p.2)
        | .error e => Except.error e
      else Except.error k) from rfl]
    rw [if_pos (h k), ih (k + 1)]
    show Except.ok _ = _
    rw [show dfsBlocks (.cons (.CNode c) ns) = Node.CNode c :: dfsBlocks ns from rfl]
    rw [List.length_cons, List.range'_succ, List.map_cons]
    rw [show k + 1 + (dfsBlocks ns).length = k + ((dfsBlocks ns).length + 1) from by omega]

/-- C6 counterexample: three Python blocks A, B, C in document order, with
B's extraction write failing (an exception `open`/`write` raises is not
inside any `try`): the walk aborts at index 1 — C is never executed, no
Execution Result list exists, and no HTML is produced for the document. -/
theorem c6_counterexample :
    compileModel (fun i => ⟨i != 1, true⟩)
      "<python>A</python><python>B</python><python>C</python>".toList =
      Except.error 1 := rfl

/-- C6 (amended): when every extraction write succeeds, the Bridge visits
the code blocks in depth-first left-to-right order and records one
Execution Result per block in exactly that order; a failing execution
step of block i (a raised exception in `exec`, or `gcc` failing with
`CalledProcessError`) is caught, recorded as `success = false`, and does
not prevent any later block from being executed.  A failing extraction
write, however, is an uncaught exception: it aborts the walk and no HTML
is produced (see the counterexample). -/
theorem c6_exec_order (env : Nat → Outcome) (t : List Char) (cs : NodeList)
    (h : ∀ i, (env i).writeOk = true) :
    execute_nodes env (Node.HtmlTagNode t cs) 0 =
      Except.ok ((dfsBlocks cs).length,
        (List.range (dfsBlocks cs).length).map (fun i => ⟨i, (env i).runOk⟩)) := by
  rw [show execute_nodes env (Node.HtmlTagNode t cs) 0 = execChildren env cs 0 from rfl]
  rw [execChildren_ok env h cs 0, List.range_eq_range', Nat.zero_add]

/-- C6 witness: three Python blocks with the middle execution failing:
all three results are recorded in order, the middle one with
`success = false`. -/
theorem c6_exec_order_witness :
    (∀ i, ((fun i => (⟨true, i != 1⟩ : Outcome)) i).writeOk = true) ∧
    execute_nodes (fun i => ⟨true, i != 1⟩)
      (Node.HtmlTagNode rootTag
        (.cons (.PythonNode "A".toList)
          (.cons (.PythonNode "B".toList)
            (.cons (.PythonNode "C".toList) .nil)))) 0 =
      Except.ok (3, [⟨0, true⟩, ⟨1, false⟩, ⟨2, true⟩]) := by
  refine ⟨fun i => rfl, ?_⟩
  rw [c6_exec_order (fun i => ⟨true, i != 1⟩) rootTag
    (.cons (.PythonNode "A".toList)
      (.cons (.PythonNode "B".toList)
        (.cons (.PythonNode "C".toList) .nil))) (fun i => rfl)]
  rfl
